import Mathlib

/-!
Verification of the static PEP 503 index generator (generate_index.py).

The program is a four-stage pipeline: paginated release fetch, wheel
extraction, grouping by normalized package name, and HTML rendering.
Each Python function is embedded as an executable Lean definition over
explicit data; JSON dictionary fields that the code accesses with .get
are modelled as Option fields, and the dictionary lookups that can raise
KeyError are modelled with Except.
-/

/-! ### Package-name normalization

Embeds normalize_name: re.sub applied with pattern [-_.]+ and
replacement "-", followed by str.lower.  The regex substitution is
modelled on the character list: every maximal run of the characters
'-', '_', '.' is replaced by a single '-'. -/

/-- The character class [-_.] of the substitution pattern. -/
def isSep (c : Char) : Bool :=
  c = '-' || c = '_' || c = '.'

/-- re.sub with pattern [-_.]+ and replacement "-": every maximal run of
separator characters becomes a single '-'. -/
def collapseSeps : List Char → List Char
  | [] => []
  | [c] => if isSep c then ['-'] else [c]
  | c :: d :: cs =>
    if isSep c then
      if isSep d then collapseSeps (d :: cs)
      else '-' :: collapseSeps (d :: cs)
    else c :: collapseSeps (d :: cs)

/-- normalize_name from the source: collapse separator runs to '-' with
re.sub, then lowercase the result (str.lower, modelled per character by
Char.toLower, which covers the basic latin range). -/
def normalize_name (name : String) : String :=
  ⟨(collapseSeps name.data).map Char.toLower⟩

/-! ### Python string helpers used by the source -/

/-- Python str.endswith, case-sensitive, modelled on the character
lists. -/
def strEndsWith (s pat : String) : Bool :=
  List.isSuffixOf pat.data s.data

/-- Python str.split with separator "-": cut the character list at every
'-'.  The result is always nonempty. -/
def pySplitDash : List Char → List (List Char)
  | [] => [[]]
  | c :: cs =>
    match pySplitDash cs with
    | [] => [[]]
    | g :: gs => if c = '-' then [] :: g :: gs else (c :: g) :: gs

/-- filename.split("-")[0] from the grouping step of main. -/
def name_part (filename : String) : String :=
  ⟨(pySplitDash filename.data).headD []⟩

/-- Python string comparison (lexicographic by code point) as a Boolean
relation on character lists. -/
def charsLE : List Char → List Char → Bool
  | [], _ => true
  | _ :: _, [] => false
  | a :: as, b :: bs => if a < b then true else if b < a then false else charsLE as bs

/-- Python operator <= on strings, used by sorted. -/
def strLe (a b : String) : Prop :=
  charsLE a.data b.data = true

instance : DecidableRel strLe := fun a b => by
  unfold strLe; infer_instance

/-- Python "\n".join. -/
def joinNL : List String → String
  | [] => ""
  | [s] => s
  | s :: rest => s ++ "\n" ++ joinNL rest

/-! ### Data model

A release object of the GitHub API carries tag_name and assets; an asset
carries name, browser_download_url and size.  The source reads tag_name,
assets and size with .get (so a missing field is defaulted) but name and
browser_download_url with plain indexing (so a missing field raises
KeyError); all five are therefore modelled as Option fields. -/

structure Asset where
  name : Option String
  browser_download_url : Option String
  size : Option Int
deriving DecidableEq, Repr

structure Release where
  tag_name : Option String
  assets : Option (List Asset)
deriving DecidableEq, Repr

/-- The dictionary built for each wheel asset by extract_wheels. -/
structure WheelRecord where
  filename : String
  url : String
  size : Int
  tag : String
deriving DecidableEq, Repr

/-- The KeyError raised by a plain dictionary lookup in extract_wheels. -/
inductive KeyErr where
  | nameKey
  | urlKey
deriving DecidableEq, Repr

/-- Outcome of requesting one page of the releases API: a JSON array, an
HTTPError (caught by the source), or a transport-level error such as
urllib's URLError (not caught by the source). -/
inductive PageResult where
  | ok (data : List Release)
  | httpError
  | transportError
deriving DecidableEq, Repr

/-- Observable outcome of get_all_releases: a normal return carrying the
accumulated releases and the number of page requests made, an uncaught
exception raised while fetching some page, or (model artifact) running
out of fuel before the loop exits. -/
inductive FetchOutcome where
  | returns (releases : List Release) (requests : Nat)
  | raises (page : Nat)
  | outOfFuel
deriving DecidableEq, Repr

/-- A filesystem side effect of main, in program order. -/
inductive FsOp where
  | mkdirParents (path : String)
  | mkdir (path : String)
  | write (path : String) (content : String)
deriving DecidableEq, Repr

/-- Observable outcome of a whole run of main. -/
inductive RunOutcome where
  | exits (code : Nat) (ops : List FsOp)
  | raisesKey (e : KeyErr)
  | raisesFetch (page : Nat)
  | outOfFuel
deriving DecidableEq, Repr

/-! ### Release fetcher

get_all_releases pages from page 1, with 100 records per page.  The try
block catches only HTTPError: an HTTPError breaks the loop and the
accumulated list is returned; a transport error (URLError that is not an
HTTPError) is not caught and propagates.  An empty page also breaks the
loop.  The API is a function from page number to PageResult; fuel bounds
the number of iterations of the unbounded while loop. -/

def fetchLoop (api : Nat → PageResult) : Nat → Nat → List Release → Nat → FetchOutcome
  | 0, _, _, _ => .outOfFuel
  | fuel + 1, page, acc, reqs =>
    match api page with
    | .httpError => .returns acc (reqs + 1)
    | .transportError => .raises page
    | .ok [] => .returns acc (reqs + 1)
    | .ok (d :: ds) => fetchLoop api fuel (page + 1) (acc ++ d :: ds) (reqs + 1)

def get_all_releases (api : Nat → PageResult) (fuel : Nat) : FetchOutcome :=
  fetchLoop api fuel 1 [] 0

/-- The record list a page carries, empty for non-ok pages. -/
def pageData (api : Nat → PageResult) (k : Nat) : List Release :=
  match api k with
  | .ok data => data
  | _ => []

/-! ### Wheel extractor

extract_wheels reads release.get("tag_name", "unknown") and
release.get("assets", []); for every asset it evaluates asset["name"]
(KeyError when missing), keeps the asset when the name ends in ".whl",
and then evaluates asset["browser_download_url"] (KeyError when missing)
and asset.get("size", 0). -/

def extractAssets (tag : String) : List Asset → Except KeyErr (List WheelRecord)
  | [] => .ok []
  | a :: rest =>
    match a.name with
    | none => .error .nameKey
    | some filename =>
      if strEndsWith filename ".whl" then
        match a.browser_download_url with
        | none => .error .urlKey
        | some url =>
          match extractAssets tag rest with
          | .error e => .error e
          | .ok ws => .ok (⟨filename, url, a.size.getD 0, tag⟩ :: ws)
      else extractAssets tag rest

def extract_wheels : List Release → Except KeyErr (List WheelRecord)
  | [] => .ok []
  | r :: rs =>
    match extractAssets (r.tag_name.getD "unknown") (r.assets.getD []) with
    | .error e => .error e
    | .ok ws =>
      match extract_wheels rs with
      | .error e => .error e
      | .ok rest_ws => .ok (ws ++ rest_ws)

/-- The WheelRecord built from one asset of a release with the given
tag, assuming name and browser_download_url are present. -/
def mkWheel (tag : String) (a : Asset) : WheelRecord :=
  ⟨a.name.getD "", a.browser_download_url.getD "", a.size.getD 0, tag⟩

/-! ### Package grouper

main derives the grouping key normalize_name(filename.split("-")[0]) and
appends each wheel to packages[key], creating the key on first use.  A
Python dict keeps keys in insertion order, so the mapping is modelled as
an association list in key insertion order. -/

/-- The grouping key of a wheel. -/
def wheelKey (w : WheelRecord) : String :=
  normalize_name (name_part w.filename)

/-- Append w to the entry of key, creating the entry at the end when the
key is new. -/
def addWheel : List (String × List WheelRecord) → String → WheelRecord → List (String × List WheelRecord)
  | [], key, w => [(key, [w])]
  | (k, ws) :: rest, key, w =>
    if k = key then (k, ws ++ [w]) :: rest
    else (k, ws) :: addWheel rest key w

/-- The grouping loop of main. -/
def groupWheels (wheels : List WheelRecord) : List (String × List WheelRecord) :=
  wheels.foldl (fun m w => addWheel m (wheelKey w) w) []

/-! ### Index renderer

Embeddings of generate_root_index, generate_package_index and
generate_landing_page.  Python sorted on strings is lexicographic by
code point, modelled by the relation strLe; sorted is a stable sort,
modelled by insertion sort. -/

instance : DecidableEq WheelRecord := inferInstance

/-- sorted key for package-index entries: w["filename"]. -/
def wheelNameLe (a b : WheelRecord) : Prop :=
  strLe a.filename b.filename

instance : DecidableRel wheelNameLe := fun a b => by
  unfold wheelNameLe strLe; infer_instance

/-- sorted key for landing-page entries: dict items compared by key
(keys of a dict are unique, so the value is never compared). -/
def pairKeyLe (a b : String × List WheelRecord) : Prop :=
  strLe a.1 b.1

instance : DecidableRel pairKeyLe := fun a b => by
  unfold pairKeyLe strLe; infer_instance

/-- One link line of the root index. -/
def rootAnchorLine (pkg : String) : String :=
  "    <a href=\"" ++ pkg ++ "/\">" ++ pkg ++ "</a><br/>"

def generate_root_index (packages : List String) : String :=
  let links := joinNL ((List.insertionSort strLe packages).map rootAnchorLine)
  "<!DOCTYPE html>\n<html>\n<head>\n    <meta name=\"pypi:repository-version\" content=\"1.0\">\n    <title>Simple Index</title>\n</head>\n<body>\n    <h1>Simple Index</h1>\n" ++ links ++ "\n</body>\n</html>"

/-- One link line of a package index. -/
def pkgAnchorLine (w : WheelRecord) : String :=
  "    <a href=\"" ++ w.url ++ "#sha256=\" data-dist-info-metadata=\"false\">" ++ w.filename ++ "</a><br/>"

def generate_package_index (package_name : String) (wheels : List WheelRecord) : String :=
  let sorted_wheels := List.insertionSort wheelNameLe wheels
  let links := joinNL (sorted_wheels.map pkgAnchorLine)
  "<!DOCTYPE html>\n<html>\n<head>\n    <meta name=\"pypi:repository-version\" content=\"1.0\">\n    <title>Links for " ++ package_name ++ "</title>\n</head>\n<body>\n    <h1>Links for " ++ package_name ++ "</h1>\n" ++ links ++ "\n</body>\n</html>"

/-- Landing-page template up to the total-wheels figure (literal braces
of the CSS are written as hex escapes). -/
def landingPartA : String :=
  "<!DOCTYPE html>\n<html>\n<head>\n    <meta charset=\"utf-8\">\n    <meta name=\"viewport\" content=\"width=device-width, initial-scale=1\">\n    <title>Flash Attention Pre-built Wheels Index</title>\n    <style>\n        body \x7b\n            font-family: -apple-system, BlinkMacSystemFont, \x27Segoe UI\x27, Roboto, Oxygen, Ubuntu, sans-serif;\n            max-width: 800px;\n            margin: 0 auto;\n            padding: 2rem;\n            line-height: 1.6;\n        \x7d\n        h1 \x7b color: #2d3748; \x7d\n        code \x7b\n            background: #f1f5f9;\n            padding: 0.2rem 0.4rem;\n            border-radius: 4px;\n            font-size: 0.9em;\n        \x7d\n        pre \x7b\n            background: #1e293b;\n            color: #e2e8f0;\n            padding: 1rem;\n            border-radius: 8px;\n            overflow-x: auto;\n        \x7d\n        pre code \x7b\n            background: none;\n            padding: 0;\n        \x7d\n        .stats \x7b\n            background: #f8fafc;\n            border: 1px solid #e2e8f0;\n            border-radius: 8px;\n            padding: 1rem;\n            margin: 1rem 0;\n        \x7d\n        a \x7b color: #3b82f6; \x7d\n    </style>\n</head>\n<body>\n    <h1>🚀 Flash Attention Pre-built Wheels</h1>\n    \n    <p>\n        This is a PEP 503 compliant Python package index for pre-built \n        <a href=\"https://github.com/Dao-AILab/flash-attention\">Flash Attention</a> wheels,\n        sourced from <a href=\"https://github.com/mjun0812/flash-attention-prebuild-wheels\">mjun0812/flash-attention-prebuild-wheels</a>.\n    </p>\n    \n    <div class=\"stats\">\n        <strong>📦 "

/-- Landing-page template between the two figures. -/
def landingPartB : String :=
  "</strong> wheels available for <strong>"

/-- Landing-page template between the package count and the package
list. -/
def landingPartC : String :=
  "</strong> package(s)\n    </div>\n    \n    <h2>Installation</h2>\n    \n    <p>Install flash-attn using this index:</p>\n    <pre><code>pip install flash-attn --index-url https://YOUR_DOMAIN/simple/</code></pre>\n    \n    <p>Or use as an extra index (with PyPI fallback):</p>\n    <pre><code>pip install flash-attn --extra-index-url https://YOUR_DOMAIN/simple/</code></pre>\n    \n    <p>Install a specific version:</p>\n    <pre><code>pip install flash-attn==2.5.9 --index-url https://YOUR_DOMAIN/simple/</code></pre>\n    \n    <h2>Available Packages</h2>\n    <ul>\n        "

/-- Landing-page template after the package list. -/
def landingPartD : String :=
  "\n    </ul>\n    \n    <p>\n        <a href=\"simple/\">Browse the simple index →</a>\n    </p>\n    \n    <hr>\n    <p style=\"color: #64748b; font-size: 0.875rem;\">\n        Auto-generated from GitHub releases. \n        Wheels are served directly from GitHub.\n    </p>\n</body>\n</html>"

def generate_landing_page (packages : List (String × List WheelRecord)) (total_wheels : Nat) : String :=
  let pkg_list := joinNL ((List.insertionSort pairKeyLe packages).map (fun p =>
    "<li><strong>" ++ p.1 ++ "</strong>: " ++ toString p.2.length ++ " wheels</li>"))
  landingPartA ++ toString total_wheels ++ landingPartB ++ toString packages.length
    ++ landingPartC ++ pkg_list ++ landingPartD

/-! ### main

The run is modelled by its observable effects: the exit code and the
ordered list of filesystem operations.  processReleases is the part of
main after the fetch; main composes it with get_all_releases. -/

def processReleases (releases : List Release) : Except KeyErr (Nat × List FsOp) :=
  match extract_wheels releases with
  | .error e => .error e
  | .ok wheels =>
    if wheels.isEmpty then .ok (1, [])
    else
      let packages := groupWheels wheels
      let root_html := generate_root_index (packages.map Prod.fst)
      let pkg_ops := packages.flatMap (fun p =>
        [FsOp.mkdir ("public/simple/" ++ p.1),
         FsOp.write ("public/simple/" ++ p.1 ++ "/index.html") (generate_package_index p.1 p.2)])
      let landing := generate_landing_page packages wheels.length
      .ok (0, [FsOp.mkdirParents "public/simple",
               FsOp.write "public/simple/index.html" root_html]
              ++ pkg_ops
              ++ [FsOp.write "public/index.html" landing])

/-- The source's main (the name main is reserved by Lean for entry
points, hence runMain). -/
def runMain (api : Nat → PageResult) (fuel : Nat) : RunOutcome :=
  match get_all_releases api fuel with
  | .outOfFuel => .outOfFuel
  | .raises p => .raisesFetch p
  | .returns releases _ =>
    match processReleases releases with
    | .error e => .raisesKey e
    | .ok (code, ops) => .exits code ops

/-! ### Lemmas about normalization -/

theorem toNat_ofNat_valid (n : Nat) (h1 : 97 ≤ n) (h2 : n ≤ 122) :
    (Char.ofNat n).toNat = n := by
  rw [Char.ofNat, dif_pos (Or.inl (by omega))]
  simp [Char.ofNatAux, Char.toNat, UInt32.toNat]

theorem char_eq_of_toNat_eq {c d : Char} (h : c.toNat = d.toNat) : c = d := by
  apply Char.ext
  apply UInt32.eq_of_toBitVec_eq
  apply BitVec.eq_of_toNat_eq
  exact h

theorem isSep_toNat {c : Char} (h : isSep c = true) :
    c.toNat = 45 ∨ c.toNat = 46 ∨ c.toNat = 95 := by
  simp [isSep] at h
  rcases h with (h | h) | h <;> subst h <;> decide

@[simp] theorem isSep_toLower (c : Char) : isSep c.toLower = isSep c := by
  by_cases h : c.toNat ≥ 65 ∧ c.toNat ≤ 90
  · have hv : (Char.ofNat (c.toNat + 32)).toNat = c.toNat + 32 :=
      toNat_ofNat_valid _ (by omega) (by omega)
    have h1 : isSep (Char.ofNat (c.toNat + 32)) = false := by
      by_contra hc
      simp only [Bool.not_eq_false] at hc
      rcases isSep_toNat hc with h' | h' | h' <;> omega
    have h2 : isSep c = false := by
      by_contra hc
      simp only [Bool.not_eq_false] at hc
      rcases isSep_toNat hc with h' | h' | h' <;> omega
    simp [Char.toLower, h, h1, h2]
  · simp [Char.toLower, h]

theorem toLower_toLower (c : Char) : c.toLower.toLower = c.toLower := by
  by_cases h : c.toNat ≥ 65 ∧ c.toNat ≤ 90
  · have hv : (Char.ofNat (c.toNat + 32)).toNat = c.toNat + 32 :=
      toNat_ofNat_valid _ (by omega) (by omega)
    simp [Char.toLower, h, hv]
    omega
  · simp [Char.toLower, h]

theorem collapse_ne_nil : ∀ l : List Char, l ≠ [] → collapseSeps l ≠ []
  | [c], _ => by
    by_cases h : isSep c <;> simp [collapseSeps, h]
  | c :: d :: cs, _ => by
    by_cases h1 : isSep c <;> by_cases h2 : isSep d <;>
      simp [collapseSeps, h1, h2]
    exact collapse_ne_nil (d :: cs) (by simp)

theorem collapse_head_nonSep (d : Char) (cs : List Char) (h : isSep d = false) :
    ∃ t, collapseSeps (d :: cs) = d :: t := by
  match cs with
  | [] => exact ⟨[], by simp [collapseSeps, h]⟩
  | e :: es => exact ⟨collapseSeps (e :: es), by simp [collapseSeps, h]⟩

theorem collapseSeps_idem : ∀ l : List Char, collapseSeps (collapseSeps l) = collapseSeps l := by
  intro l
  induction l using collapseSeps.induct with
  | case1 => rfl
  | case2 c h =>
    simp [collapseSeps, h]
  | case3 c h =>
    simp only [Bool.not_eq_true] at h
    simp [collapseSeps, h]
  | case4 c d cs h1 h2 ih =>
    simp only [collapseSeps, h1, h2, if_true]
    exact ih
  | case5 c d cs h1 h2 ih =>
    simp only [Bool.not_eq_true] at h2
    simp only [collapseSeps, h1, h2, if_true, Bool.false_eq_true, if_false]
    obtain ⟨t, ht⟩ := collapse_head_nonSep d cs h2
    rw [ht]
    have hstep : collapseSeps ('-' :: d :: t) = '-' :: collapseSeps (d :: t) := by
      simp [collapseSeps, h2]
    rw [hstep, ← ht, ih]
  | case6 c d cs h1 ih =>
    simp only [Bool.not_eq_true] at h1
    simp only [collapseSeps, h1, Bool.false_eq_true, if_false]
    obtain ⟨x, xs, hx⟩ : ∃ x xs, collapseSeps (d :: cs) = x :: xs := by
      cases he : collapseSeps (d :: cs) with
      | nil => exact absurd he (collapse_ne_nil _ (by simp))
      | cons x xs => exact ⟨x, xs, rfl⟩
    rw [hx]
    have hstep : collapseSeps (c :: x :: xs) = c :: collapseSeps (x :: xs) := by
      simp [collapseSeps, h1]
    rw [hstep, ← hx, ih]

theorem collapseSeps_map_toLower :
    ∀ l : List Char, collapseSeps (l.map Char.toLower) = (collapseSeps l).map Char.toLower := by
  intro l
  have hdash : Char.toLower '-' = '-' := by decide
  induction l using collapseSeps.induct with
  | case1 => rfl
  | case2 c h =>
    simp [collapseSeps, isSep_toLower, h, hdash]
  | case3 c h =>
    simp only [Bool.not_eq_true] at h
    simp [collapseSeps, isSep_toLower, h]
  | case4 c d cs h1 h2 ih =>
    simp only [List.map_cons, collapseSeps, isSep_toLower, h1, h2, if_true]
    simpa using ih
  | case5 c d cs h1 h2 ih =>
    simp only [Bool.not_eq_true] at h2
    simp only [List.map_cons, collapseSeps, isSep_toLower, h1, h2, if_true,
      Bool.false_eq_true, if_false, hdash]
    simpa using ih
  | case6 c d cs h1 ih =>
    simp only [Bool.not_eq_true] at h1
    simp only [List.map_cons, collapseSeps, isSep_toLower, h1, Bool.false_eq_true, if_false]
    simpa using ih

/-- C8: package-name normalization is idempotent: for every non-empty
string x, normalize_name (normalize_name x) = normalize_name x, where
normalize_name replaces every run of '-', '_', '.' with a single '-'
and lowercases the result. -/
theorem normalize_name_idem (x : String) (hx : x ≠ "") :
    normalize_name (normalize_name x) = normalize_name x := by
  show (⟨(collapseSeps ((collapseSeps x.data).map Char.toLower)).map Char.toLower⟩ : String)
      = ⟨(collapseSeps x.data).map Char.toLower⟩
  rw [collapseSeps_map_toLower, collapseSeps_idem, List.map_map]
  congr 1
  apply List.map_congr_left
  intro a _
  exact toLower_toLower a

/-- Witness for C8 at the spec's own example string. -/
theorem normalize_name_idem_witness :
    ("Foo__Bar..Baz" : String) ≠ "" ∧
      normalize_name (normalize_name "Foo__Bar..Baz") = normalize_name "Foo__Bar..Baz" :=
  ⟨by decide, normalize_name_idem "Foo__Bar..Baz" (by decide)⟩

/-! ### The Python string order is a linear order -/

theorem charsLE_total (a : List Char) : ∀ b, charsLE a b = true ∨ charsLE b a = true := by
  induction a with
  | nil => intro b; left; rfl
  | cons x xs ih =>
    intro b
    cases b with
    | nil => right; rfl
    | cons y ys =>
      rcases lt_trichotomy x y with h | h | h
      · left; simp [charsLE, h]
      · subst h
        rcases ih ys with h' | h'
        · left; simp [charsLE, lt_self_iff_false, h']
        · right; simp [charsLE, lt_self_iff_false, h']
      · right; simp [charsLE, h]

theorem charsLE_trans (a : List Char) :
    ∀ b c, charsLE a b = true → charsLE b c = true → charsLE a c = true := by
  induction a with
  | nil => intro b c _ _; rfl
  | cons x xs ih =>
    intro b c hab hbc
    cases b with
    | nil => simp [charsLE] at hab
    | cons y ys =>
      cases c with
      | nil => simp [charsLE] at hbc
      | cons z zs =>
        rcases lt_trichotomy x y with hxy | hxy | hxy
        · rcases lt_trichotomy y z with hyz | hyz | hyz
          · simp [charsLE, lt_trans hxy hyz]
          · subst hyz; simp [charsLE, hxy]
          · have h1 : ¬ y < z := lt_asymm hyz
            simp [charsLE, h1, hyz] at hbc
        · subst hxy
          rcases lt_trichotomy x z with hxz | hxz | hxz
          · simp [charsLE, hxz]
          · subst hxz
            simp only [charsLE, lt_self_iff_false, if_false] at hab hbc ⊢
            exact ih ys zs hab hbc
          · have h1 : ¬ x < z := lt_asymm hxz
            simp [charsLE, h1, hxz] at hbc
        · have h1 : ¬ x < y := lt_asymm hxy
          simp [charsLE, h1, hxy] at hab

theorem charsLE_antisymm (a : List Char) :
    ∀ b, charsLE a b = true → charsLE b a = true → a = b := by
  induction a with
  | nil =>
    intro b hab hba
    cases b with
    | nil => rfl
    | cons y ys => simp [charsLE] at hba
  | cons x xs ih =>
    intro b hab hba
    cases b with
    | nil => simp [charsLE] at hab
    | cons y ys =>
      rcases lt_trichotomy x y with h | h | h
      · have h1 : ¬ y < x := lt_asymm h
        simp [charsLE, h1, h] at hba
      · subst h
        simp only [charsLE, lt_self_iff_false, if_false] at hab hba
        rw [ih ys hab hba]
      · have h1 : ¬ x < y := lt_asymm h
        simp [charsLE, h1, h] at hab

theorem strLe_antisymm {a b : String} (h1 : strLe a b) (h2 : strLe b a) : a = b := by
  have h := charsLE_antisymm a.data b.data h1 h2
  cases a
  cases b
  exact congrArg String.mk h

instance : IsTotal String strLe :=
  ⟨fun a b => charsLE_total a.data b.data⟩

instance : IsTrans String strLe :=
  ⟨fun a b c => charsLE_trans a.data b.data c.data⟩

instance : IsAntisymm String strLe :=
  ⟨fun _ _ h1 h2 => strLe_antisymm h1 h2⟩

instance : IsTotal WheelRecord wheelNameLe :=
  ⟨fun a b => charsLE_total a.filename.data b.filename.data⟩

instance : IsTrans WheelRecord wheelNameLe :=
  ⟨fun a b c => charsLE_trans a.filename.data b.filename.data c.filename.data⟩

/-- Strict version of wheelNameLe, used to compare sorted wheel lists
with pairwise distinct filenames. -/
def wheelNameLt (a b : WheelRecord) : Prop :=
  wheelNameLe a b ∧ a.filename ≠ b.filename

instance : IsAntisymm WheelRecord wheelNameLt :=
  ⟨fun _ _ h1 h2 => absurd (strLe_antisymm h1.1 h2.1) h1.2⟩

/-! ### C5: the root index -/

/-- C5: the root index document has exactly one anchor line per distinct
package name (href is the name followed by "/", text is the name), the
anchors appear sorted lexicographically regardless of input order, and
the document contains the meta tag
<meta name="pypi:repository-version" content="1.0">. -/
theorem generate_root_index_spec (packages : List String) (hnd : packages.Nodup) :
    (List.insertionSort strLe packages).Perm packages
    ∧ (List.insertionSort strLe packages).Nodup
    ∧ (List.insertionSort strLe packages).Sorted strLe
    ∧ generate_root_index packages
        = "<!DOCTYPE html>\n<html>\n<head>\n    "
          ++ "<meta name=\"pypi:repository-version\" content=\"1.0\">"
          ++ ("\n    <title>Simple Index</title>\n</head>\n<body>\n    <h1>Simple Index</h1>\n"
          ++ (joinNL ((List.insertionSort strLe packages).map rootAnchorLine)
          ++ "\n</body>\n</html>"))
    ∧ (∀ qs : List String, qs.Perm packages →
        generate_root_index qs = generate_root_index packages) := by
  refine ⟨List.perm_insertionSort _ _,
    ((List.perm_insertionSort strLe packages).nodup_iff).mpr hnd,
    List.sorted_insertionSort _ _, ?_, ?_⟩
  · simp only [generate_root_index, ← String.append_assoc]
    congr 2
  · intro qs hperm
    have hsort : List.insertionSort strLe qs = List.insertionSort strLe packages :=
      List.eq_of_perm_of_sorted
        ((List.perm_insertionSort strLe qs).trans
          (hperm.trans (List.perm_insertionSort strLe packages).symm))
        (List.sorted_insertionSort _ _) (List.sorted_insertionSort _ _)
    simp [generate_root_index, hsort]

/-- Witness for C5 on a concrete unordered package list. -/
theorem generate_root_index_spec_witness :
    (["b", "a"] : List String).Nodup
    ∧ ((List.insertionSort strLe ["b", "a"]).Perm ["b", "a"]
    ∧ (List.insertionSort strLe ["b", "a"]).Nodup
    ∧ (List.insertionSort strLe ["b", "a"]).Sorted strLe
    ∧ generate_root_index ["b", "a"]
        = "<!DOCTYPE html>\n<html>\n<head>\n    "
          ++ "<meta name=\"pypi:repository-version\" content=\"1.0\">"
          ++ ("\n    <title>Simple Index</title>\n</head>\n<body>\n    <h1>Simple Index</h1>\n"
          ++ (joinNL ((List.insertionSort strLe ["b", "a"]).map rootAnchorLine)
          ++ "\n</body>\n</html>"))
    ∧ (∀ qs : List String, qs.Perm ["b", "a"] →
        generate_root_index qs = generate_root_index ["b", "a"])) :=
  ⟨by decide, generate_root_index_spec ["b", "a"] (by decide)⟩

/-! ### C6: the package index -/

theorem sorted_wheelLt_of_sorted_nodup {l : List WheelRecord}
    (hs : l.Sorted wheelNameLe) (hn : (l.map WheelRecord.filename).Nodup) :
    l.Sorted wheelNameLt := by
  have hne : l.Pairwise (fun a b => a.filename ≠ b.filename) := List.pairwise_map.mp hn
  exact (List.Pairwise.and hs hne).imp (fun h => ⟨h.1, h.2⟩)

/-- C6: the package index document is the template around one anchor
line per wheel, the wheels sorted by filename ascending whatever the
input order, each anchor pointing at the wheel's download URL with the
empty "#sha256=" fragment appended, carrying the
data-dist-info-metadata="false" attribute, with the filename as link
text. -/
theorem generate_package_index_spec (package_name : String) (wheels : List WheelRecord) :
    (List.insertionSort wheelNameLe wheels).Perm wheels
    ∧ (List.insertionSort wheelNameLe wheels).Sorted wheelNameLe
    ∧ (∀ w : WheelRecord, pkgAnchorLine w
        = "    <a href=\"" ++ (w.url ++ "#sha256=")
          ++ "\" data-dist-info-metadata=\"false\">" ++ w.filename ++ "</a><br/>")
    ∧ generate_package_index package_name wheels
        = "<!DOCTYPE html>\n<html>\n<head>\n    <meta name=\"pypi:repository-version\" content=\"1.0\">\n    <title>Links for "
          ++ package_name ++ "</title>\n</head>\n<body>\n    <h1>Links for "
          ++ package_name ++ "</h1>\n"
          ++ joinNL ((List.insertionSort wheelNameLe wheels).map pkgAnchorLine)
          ++ "\n</body>\n</html>"
    ∧ ((wheels.map WheelRecord.filename).Nodup → ∀ ws : List WheelRecord, ws.Perm wheels →
        generate_package_index package_name ws = generate_package_index package_name wheels) := by
  refine ⟨List.perm_insertionSort _ _, List.sorted_insertionSort _ _, ?_, rfl, ?_⟩
  · intro w
    simp only [pkgAnchorLine, ← String.append_assoc]
    congr 2
    conv_rhs => rw [String.append_assoc]
    congr 1
  · intro hnodup ws hperm
    have hnw : (ws.map WheelRecord.filename).Nodup :=
      ((hperm.map WheelRecord.filename).nodup_iff).mpr hnodup
    have hs1 : (List.insertionSort wheelNameLe ws).Sorted wheelNameLt :=
      sorted_wheelLt_of_sorted_nodup (List.sorted_insertionSort _ _)
        (((List.perm_insertionSort wheelNameLe ws).map WheelRecord.filename).nodup_iff.mpr hnw)
    have hs2 : (List.insertionSort wheelNameLe wheels).Sorted wheelNameLt :=
      sorted_wheelLt_of_sorted_nodup (List.sorted_insertionSort _ _)
        (((List.perm_insertionSort wheelNameLe wheels).map WheelRecord.filename).nodup_iff.mpr hnodup)
    have hsort : List.insertionSort wheelNameLe ws = List.insertionSort wheelNameLe wheels :=
      List.eq_of_perm_of_sorted
        ((List.perm_insertionSort wheelNameLe ws).trans
          (hperm.trans (List.perm_insertionSort wheelNameLe wheels).symm))
        hs1 hs2
    simp [generate_package_index, hsort]

/-- Witness for C6 on a concrete out-of-order wheel list. -/
theorem generate_package_index_spec_witness :
    ((List.insertionSort wheelNameLe
        [⟨"b.whl", "ub", 2, "t"⟩, ⟨"a.whl", "ua", 1, "t"⟩]).Perm
        [⟨"b.whl", "ub", 2, "t"⟩, ⟨"a.whl", "ua", 1, "t"⟩]
    ∧ (List.insertionSort wheelNameLe
        [⟨"b.whl", "ub", 2, "t"⟩, ⟨"a.whl", "ua", 1, "t"⟩]).Sorted wheelNameLe
    ∧ (∀ w : WheelRecord, pkgAnchorLine w
        = "    <a href=\"" ++ (w.url ++ "#sha256=")
          ++ "\" data-dist-info-metadata=\"false\">" ++ w.filename ++ "</a><br/>")
    ∧ generate_package_index "flash-attn"
        [⟨"b.whl", "ub", 2, "t"⟩, ⟨"a.whl", "ua", 1, "t"⟩]
        = "<!DOCTYPE html>\n<html>\n<head>\n    <meta name=\"pypi:repository-version\" content=\"1.0\">\n    <title>Links for "
          ++ "flash-attn" ++ "</title>\n</head>\n<body>\n    <h1>Links for "
          ++ "flash-attn" ++ "</h1>\n"
          ++ joinNL ((List.insertionSort wheelNameLe
              [⟨"b.whl", "ub", 2, "t"⟩, ⟨"a.whl", "ua", 1, "t"⟩]).map pkgAnchorLine)
          ++ "\n</body>\n</html>"
    ∧ (([⟨"b.whl", "ub", 2, "t"⟩, ⟨"a.whl", "ua", 1, "t"⟩].map WheelRecord.filename).Nodup →
        ∀ ws : List WheelRecord,
          ws.Perm [⟨"b.whl", "ub", 2, "t"⟩, ⟨"a.whl", "ua", 1, "t"⟩] →
          generate_package_index "flash-attn" ws
            = generate_package_index "flash-attn"
                [⟨"b.whl", "ub", 2, "t"⟩, ⟨"a.whl", "ua", 1, "t"⟩])) :=
  generate_package_index_spec "flash-attn" [⟨"b.whl", "ub", 2, "t"⟩, ⟨"a.whl", "ua", 1, "t"⟩]

/-! ### C7 and C1: pagination and its failure policy -/

/-- C7: starting at page 1 and stopping at the first empty page, an API
with exactly 100 records on page 1 and 0 records on page 2 yields
exactly 2 page requests and the 100 records of page 1, in page order. -/
theorem get_all_releases_two_pages (api : Nat → PageResult) (data : List Release) (fuel : Nat)
    (hlen : data.length = 100) (h1 : api 1 = .ok data) (h2 : api 2 = .ok [])
    (hfuel : 2 ≤ fuel) :
    get_all_releases api fuel = .returns data 2 := by
  obtain ⟨f, rfl⟩ : ∃ f, fuel = f + 2 := ⟨fuel - 2, by omega⟩
  cases data with
  | nil => simp at hlen
  | cons d ds =>
    simp [get_all_releases, fetchLoop, h1, h2]

/-- The API of the C7 scenario: 100 records on page 1, none afterwards. -/
def mockRelease : Release := ⟨some "v1", some []⟩

def mockPage : List Release := List.replicate 100 mockRelease

def mockApi : Nat → PageResult := fun page => if page = 1 then .ok mockPage else .ok []

/-- Witness for C7 on the mocked two-page API. -/
theorem get_all_releases_two_pages_witness :
    mockPage.length = 100 ∧ mockApi 1 = .ok mockPage ∧ mockApi 2 = .ok []
    ∧ get_all_releases mockApi 2 = .returns mockPage 2 :=
  ⟨by simp [mockPage], rfl, rfl,
    get_all_releases_two_pages mockApi mockPage 2 (by simp [mockPage]) rfl rfl (by omega)⟩

/-- An API whose first page request fails at the transport level (for
example a DNS or connection failure raising URLError). -/
def transportApi : Nat → PageResult := fun _ => .transportError

/-- C1 counterexample: a transport error on page 1 does not degrade to a
partial result — get_all_releases does not return at all, the exception
propagates to the caller, because the except clause catches only
HTTPError. -/
theorem get_all_releases_transport_cex :
    get_all_releases transportApi 1 = .raises 1
    ∧ ∀ rs n, get_all_releases transportApi 1 ≠ .returns rs n := by
  refine ⟨rfl, fun rs n h => ?_⟩
  rw [show get_all_releases transportApi 1 = .raises 1 from rfl] at h
  exact FetchOutcome.noConfusion h

theorem fetchLoop_httpStop (api : Nat → PageResult) :
    ∀ (n page reqs fuel : Nat) (acc : List Release),
      (∀ k, page ≤ k → k < page + n → ∃ d, d ≠ [] ∧ api k = .ok d) →
      api (page + n) = .httpError →
      n < fuel →
      fetchLoop api fuel page acc reqs
        = .returns (acc ++ (List.range' page n).flatMap (pageData api)) (reqs + n + 1) := by
  intro n
  induction n with
  | zero =>
    intro page reqs fuel acc hok herr hfuel
    obtain ⟨f, rfl⟩ : ∃ f, fuel = f + 1 := ⟨fuel - 1, by omega⟩
    simp only [Nat.add_zero] at herr
    simp [fetchLoop, herr]
  | succ n ih =>
    intro page reqs fuel acc hok herr hfuel
    obtain ⟨f, rfl⟩ : ∃ f, fuel = f + 1 := ⟨fuel - 1, by omega⟩
    obtain ⟨d, hne, hok1⟩ := hok page (le_refl _) (by omega)
    have hpd : pageData api page = d := by simp [pageData, hok1]
    cases d with
    | nil => exact absurd rfl hne
    | cons d ds =>
      simp only [fetchLoop, hok1]
      rw [ih (page + 1) (reqs + 1) f (acc ++ d :: ds)
        (fun k hk1 hk2 => hok k (by omega) (by omega))
        (by rw [show page + 1 + n = page + (n + 1) from by omega]; exact herr)
        (by omega)]
      rw [List.range'_succ]
      simp only [List.flatMap_cons, hpd]
      rw [List.append_assoc]
      congr 1
      omega

/-- C1 (amended): an HTTP error response (urllib HTTPError) while
requesting a page immediately terminates pagination and get_all_releases
returns the release records accumulated from the earlier pages, with no
exception; but a transport error that is not an HTTP error response is
not caught and propagates to the caller (see the counterexample). -/
theorem get_all_releases_httpError_partial (api : Nat → PageResult) (p fuel : Nat)
    (hp : 1 ≤ p)
    (hok : ∀ k, 1 ≤ k → k < p → ∃ d, d ≠ [] ∧ api k = .ok d)
    (herr : api p = .httpError)
    (hfuel : p ≤ fuel) :
    get_all_releases api fuel
      = .returns ((List.range' 1 (p - 1)).flatMap (pageData api)) p := by
  have hstep := fetchLoop_httpStop api (p - 1) 1 0 fuel []
    (fun k hk1 hk2 => hok k hk1 (by omega))
    (by rw [show 1 + (p - 1) = p from by omega]; exact herr)
    (by omega)
  simp only [List.nil_append] at hstep
  rw [show 0 + (p - 1) + 1 = p from by omega] at hstep
  exact hstep

/-- An API with one good page and an HTTP error on page 2. -/
def httpErrApi : Nat → PageResult := fun page => if page = 1 then .ok [mockRelease] else .httpError

/-- Witness for C1 (amended): the HTTP error on page 2 yields the page-1
records as a normal return. -/
theorem get_all_releases_httpError_partial_witness :
    httpErrApi 2 = .httpError
    ∧ get_all_releases httpErrApi 5
        = .returns ((List.range' 1 1).flatMap (pageData httpErrApi)) 2
    ∧ (List.range' 1 1).flatMap (pageData httpErrApi) = [mockRelease] :=
  ⟨rfl,
    get_all_releases_httpError_partial httpErrApi 2 5 (by omega)
      (fun k hk1 hk2 => ⟨[mockRelease], by simp,
        by rw [show k = 1 from by omega]; rfl⟩)
      rfl (by omega),
    by decide⟩

/-! ### C4 and C9: wheel extraction -/

instance {ε α : Type} [DecidableEq ε] [DecidableEq α] : DecidableEq (Except ε α) := fun a b =>
  match a, b with
  | .error x, .error y =>
    if h : x = y then isTrue (by rw [h]) else isFalse (by simp [h])
  | .ok x, .ok y =>
    if h : x = y then isTrue (by rw [h]) else isFalse (by simp [h])
  | .error _, .ok _ => isFalse (by simp)
  | .ok _, .error _ => isFalse (by simp)

theorem extractAssets_filter (tag : String) (l : List Asset)
    (h : ∀ a ∈ l, a.name ≠ none ∧ a.browser_download_url ≠ none) :
    extractAssets tag l
      = .ok ((l.filter (fun a => strEndsWith (a.name.getD "") ".whl")).map (mkWheel tag)) := by
  induction l with
  | nil => rfl
  | cons a rest ih =>
    obtain ⟨hn, hu⟩ := h a (List.mem_cons_self a rest)
    obtain ⟨n, hn'⟩ := Option.ne_none_iff_exists'.mp hn
    obtain ⟨u, hu'⟩ := Option.ne_none_iff_exists'.mp hu
    have ihr := ih (fun b hb => h b (List.mem_cons_of_mem _ hb))
    by_cases hw : strEndsWith n ".whl"
    · simp [extractAssets, hn', hw, hu', ihr, List.filter_cons, mkWheel]
    · simp [extractAssets, hn', hw, ihr, List.filter_cons]

/-- C4: wheel extraction keeps exactly the assets whose name ends in
".whl", with a case-sensitive comparison, in release-then-asset order,
each kept asset yielding the record of its filename, download URL,
size defaulted to 0 and release tag defaulted to "unknown". -/
theorem extract_wheels_filter (rs : List Release)
    (h : ∀ r ∈ rs, ∀ a ∈ r.assets.getD [], a.name ≠ none ∧ a.browser_download_url ≠ none) :
    extract_wheels rs
      = .ok (rs.flatMap (fun r =>
          ((r.assets.getD []).filter (fun a => strEndsWith (a.name.getD "") ".whl")).map
            (mkWheel (r.tag_name.getD "unknown")))) := by
  induction rs with
  | nil => rfl
  | cons r rs ih =>
    have h1 := extractAssets_filter (r.tag_name.getD "unknown") (r.assets.getD [])
      (h r (List.mem_cons_self r rs))
    have h2 := ih (fun r' hr' => h r' (List.mem_cons_of_mem _ hr'))
    simp [extract_wheels, h1, h2]

/-- The release of the C4 scenario: assets a.whl, a.tar.gz, b.WHL. -/
def exampleRelease : Release :=
  ⟨some "v1", some [⟨some "a.whl", some "https://e/a.whl", some 10⟩,
                    ⟨some "a.tar.gz", some "https://e/a.tar.gz", some 5⟩,
                    ⟨some "b.WHL", some "https://e/b.WHL", some 7⟩]⟩

/-- Witness for C4: the example release yields exactly one record, for
a.whl. -/
theorem extract_wheels_filter_witness :
    (∀ r ∈ [exampleRelease], ∀ a ∈ r.assets.getD [],
      a.name ≠ none ∧ a.browser_download_url ≠ none)
    ∧ extract_wheels [exampleRelease] = .ok [⟨"a.whl", "https://e/a.whl", 10, "v1"⟩] :=
  ⟨by decide, by rw [extract_wheels_filter [exampleRelease] (by decide)]; decide⟩

/-- A non-wheel asset with no browser_download_url key. -/
def urlLessAsset : Asset := ⟨some "readme.txt", none, some 5⟩

def urlLessRelease : Release := ⟨some "v1", some [urlLessAsset]⟩

/-- C9 counterexample: an asset with no browser_download_url whose name
does not end in ".whl" does not make extraction fail — that lookup is
only reached for wheel assets — so extraction succeeds (with no
records) rather than raising a key error. -/
theorem extract_wheels_missing_url_cex :
    urlLessAsset.browser_download_url = none
    ∧ extract_wheels [urlLessRelease] = .ok [] := by
  exact ⟨rfl, by decide⟩

theorem extractAssets_ok_iff (tag : String) (l : List Asset) :
    (∃ ws, extractAssets tag l = .ok ws)
      ↔ ∀ a ∈ l, a.name ≠ none
          ∧ (∀ n, a.name = some n → strEndsWith n ".whl" = true →
              a.browser_download_url ≠ none) := by
  induction l with
  | nil => simp [extractAssets]
  | cons a rest ih =>
    cases hn : a.name with
    | none =>
      simp only [extractAssets, hn, List.forall_mem_cons]
      constructor
      · rintro ⟨ws, hws⟩
        exact absurd hws (by simp)
      · rintro ⟨⟨hfalse, _⟩, _⟩
        exact absurd rfl hfalse
    | some n =>
      by_cases hw : strEndsWith n ".whl"
      · cases hu : a.browser_download_url with
        | none =>
          simp only [extractAssets, hn, hw, if_true, hu, List.forall_mem_cons]
          constructor
          · rintro ⟨ws, hws⟩
            exact absurd hws (by simp)
          · rintro ⟨⟨_, hurl⟩, _⟩
            exact absurd rfl (hurl n rfl hw)
        | some u =>
          cases he : extractAssets tag rest with
          | error e =>
            simp only [extractAssets, hn, hw, if_true, hu, he, List.forall_mem_cons]
            constructor
            · rintro ⟨ws, hws⟩
              exact absurd hws (by simp)
            · rintro ⟨_, hrest⟩
              obtain ⟨ws, hws⟩ := ih.mpr hrest
              rw [he] at hws
              exact absurd hws (by simp)
          | ok ws =>
            simp only [extractAssets, hn, hw, if_true, hu, he, List.forall_mem_cons]
            constructor
            · intro _
              refine ⟨⟨by simp [hn], fun n' hn' _ => by simp [hu]⟩, ?_⟩
              exact ih.mp ⟨ws, he⟩
            · intro _
              exact ⟨⟨n, u, a.size.getD 0, tag⟩ :: ws, rfl⟩
      · have hstep : extractAssets tag (a :: rest) = extractAssets tag rest := by
          simp [extractAssets, hn, hw]
        rw [hstep, ih, List.forall_mem_cons]
        constructor
        · intro hrest
          refine ⟨⟨by simp [hn], fun n' hn' hw' => ?_⟩, hrest⟩
          rw [hn] at hn'
          cases hn'
          exact absurd hw' (by simp [hw])
        · exact fun h => h.2

/-- C9 (amended): extraction is total exactly when every asset record
has a "name" key and every asset whose name ends in ".whl" has a
"browser_download_url" key; a missing "size" or a missing release
"tag_name" is defaulted (0 and "unknown" respectively).  An asset
missing "name", or a wheel asset missing "browser_download_url", makes
extraction fail with an uncaught key-lookup error, but a non-wheel
asset missing only "browser_download_url" is harmless. -/
theorem extract_wheels_total_iff (rs : List Release) :
    ((∃ wl, extract_wheels rs = .ok wl)
      ↔ ∀ r ∈ rs, ∀ a ∈ r.assets.getD [],
          a.name ≠ none
          ∧ (∀ n, a.name = some n → strEndsWith n ".whl" = true →
              a.browser_download_url ≠ none))
    ∧ extract_wheels [⟨none, some [⟨some "x.whl", some "u", none⟩]⟩]
        = .ok [⟨"x.whl", "u", 0, "unknown"⟩] := by
  refine ⟨?_, by decide⟩
  induction rs with
  | nil => simp [extract_wheels]
  | cons r rs ih =>
    cases ha : extractAssets (r.tag_name.getD "unknown") (r.assets.getD []) with
    | error e =>
      simp only [extract_wheels, ha, List.forall_mem_cons]
      constructor
      · rintro ⟨wl, hwl⟩
        exact absurd hwl (by simp)
      · rintro ⟨hr, _⟩
        obtain ⟨ws, hws⟩ := (extractAssets_ok_iff _ _).mpr hr
        rw [ha] at hws
        exact absurd hws (by simp)
    | ok ws =>
      cases he : extract_wheels rs with
      | error e =>
        simp only [extract_wheels, ha, he, List.forall_mem_cons]
        constructor
        · rintro ⟨wl, hwl⟩
          exact absurd hwl (by simp)
        · rintro ⟨_, hrest⟩
          obtain ⟨wl, hwl⟩ := ih.mpr hrest
          rw [he] at hwl
          exact absurd hwl (by simp)
      | ok rest_ws =>
        simp only [extract_wheels, ha, he, List.forall_mem_cons]
        constructor
        · intro _
          exact ⟨(extractAssets_ok_iff _ _).mp ⟨ws, ha⟩, ih.mp ⟨rest_ws, he⟩⟩
        · intro _
          exact ⟨ws ++ rest_ws, rfl⟩

/-- Witness for C9 (amended) at a concrete complete release list. -/
theorem extract_wheels_total_iff_witness :
    ((∃ wl, extract_wheels [exampleRelease] = .ok wl)
      ↔ ∀ r ∈ [exampleRelease], ∀ a ∈ r.assets.getD [],
          a.name ≠ none
          ∧ (∀ n, a.name = some n → strEndsWith n ".whl" = true →
              a.browser_download_url ≠ none))
    ∧ extract_wheels [⟨none, some [⟨some "x.whl", some "u", none⟩]⟩]
        = .ok [⟨"x.whl", "u", 0, "unknown"⟩] :=
  extract_wheels_total_iff [exampleRelease]

/-! ### C2: hyphen-free filenames in the grouper -/

/-- Modelled from the spec: the "stem" the claim says the grouper uses
for a hyphen-free filename — the filename without its final dot-suffix,
as in pathlib.Path.stem.  The source has no such computation; this
definition only formalizes the claim's word so the claim can be
compared with the code's name_part. -/
def specStem (filename : String) : String :=
  match filename.data.reverse.dropWhile (fun c => c != '.') with
  | [] => filename
  | _ :: rest => ⟨rest.reverse⟩

/-- C2 counterexample: for the hyphen-free wheel filename "abc.whl" the
grouper's pre-normalization package name is the whole filename
"abc.whl", not the stem "abc". -/
theorem name_part_stem_cex :
    (∀ c ∈ ("abc.whl" : String).data, c ≠ '-')
    ∧ name_part "abc.whl" = "abc.whl"
    ∧ specStem "abc.whl" = "abc"
    ∧ name_part "abc.whl" ≠ specStem "abc.whl" :=
  ⟨by decide, by decide, by decide, by decide⟩

/-- C2 (amended): for every wheel filename that contains no '-', the
grouper uses the whole filename (including its ".whl" suffix) as the
package name before normalization — split("-")[0] of a hyphen-free
string is the string itself — and the number of '-'-delimited fields is
never validated (the key is total). -/
theorem name_part_no_dash (f : String) (h : ∀ c ∈ f.data, c ≠ '-') :
    name_part f = f
    ∧ ∀ w : WheelRecord, w.filename = f → wheelKey w = normalize_name f := by
  have hs : ∀ l : List Char, (∀ c ∈ l, c ≠ '-') → pySplitDash l = [l] := by
    intro l hl
    induction l with
    | nil => rfl
    | cons c cs ih =>
      have hc : c ≠ '-' := hl c (by simp)
      have ihr := ih (fun d hd => hl d (by simp [hd]))
      simp [pySplitDash, ihr, hc]
  have h1 : name_part f = f := by
    rw [name_part, hs f.data h]
    rfl
  exact ⟨h1, fun w hw => by rw [wheelKey, hw, h1]⟩

/-- Witness for C2 (amended) at the filename "abc.whl". -/
theorem name_part_no_dash_witness :
    (∀ c ∈ ("abc.whl" : String).data, c ≠ '-')
    ∧ (name_part "abc.whl" = "abc.whl"
       ∧ ∀ w : WheelRecord, w.filename = "abc.whl" →
           wheelKey w = normalize_name "abc.whl") :=
  ⟨by decide, name_part_no_dash "abc.whl" (by decide)⟩

/-! ### C3: the zero-wheels run -/

/-- C3: when extraction yields no wheels (no asset name ends in ".whl"
across all fetched releases), main returns exit code 1 and performs no
filesystem operation — the zero-wheels check precedes every write. -/
theorem runMain_zero_wheels (api : Nat → PageResult) (fuel : Nat)
    (releases : List Release) (reqs : Nat)
    (hfetch : get_all_releases api fuel = .returns releases reqs)
    (hempty : extract_wheels releases = .ok []) :
    processReleases releases = .ok (1, []) ∧ runMain api fuel = .exits 1 [] := by
  have hp : processReleases releases = .ok (1, []) := by
    simp [processReleases, hempty]
  exact ⟨hp, by simp [runMain, hfetch, hp]⟩

/-- An API returning one release whose only asset is not a wheel. -/
def noWheelApi : Nat → PageResult :=
  fun page => if page = 1 then .ok [urlLessRelease] else .ok []

/-- Witness for C3 on the no-wheel API. -/
theorem runMain_zero_wheels_witness :
    get_all_releases noWheelApi 2 = .returns [urlLessRelease] 2
    ∧ extract_wheels [urlLessRelease] = .ok []
    ∧ (processReleases [urlLessRelease] = .ok (1, [])
       ∧ runMain noWheelApi 2 = .exits 1 []) :=
  ⟨by decide, by decide,
    runMain_zero_wheels noWheelApi 2 [urlLessRelease] 2 (by decide) (by decide)⟩

/-! ### C10: grouping is a partition -/

theorem addWheel_keys (m : List (String × List WheelRecord)) (key : String) (w : WheelRecord) :
    (addWheel m key w).map Prod.fst
      = if key ∈ m.map Prod.fst then m.map Prod.fst else m.map Prod.fst ++ [key] := by
  induction m with
  | nil => simp [addWheel]
  | cons p rest ih =>
    obtain ⟨k, ws⟩ := p
    by_cases hk : k = key
    · subst hk
      simp [addWheel]
    · have hk' : ¬ key = k := fun h => hk h.symm
      by_cases hmem : key ∈ rest.map Prod.fst
      · simp [addWheel, hk, ih, hmem, hk']
      · simp [addWheel, hk, ih, hmem, hk']

theorem addWheel_mem_ne {key : String} {w : WheelRecord} {k : String}
    {l : List WheelRecord} (hk : k ≠ key) :
    ∀ m : List (String × List WheelRecord),
      ((k, l) ∈ addWheel m key w) ↔ (k, l) ∈ m := by
  intro m
  induction m with
  | nil => simp [addWheel, Prod.mk.injEq, hk]
  | cons p rest ih =>
    obtain ⟨k', ws⟩ := p
    by_cases hk' : k' = key
    · subst hk'
      simp [addWheel, List.mem_cons, Prod.mk.injEq, hk]
    · simp [addWheel, hk', List.mem_cons, ih]

theorem addWheel_mem_self {key : String} {w : WheelRecord} {l : List WheelRecord} :
    ∀ m : List (String × List WheelRecord), (m.map Prod.fst).Nodup →
      (((key, l) ∈ addWheel m key w)
        ↔ ((key ∉ m.map Prod.fst ∧ l = [w])
           ∨ (∃ l₀, (key, l₀) ∈ m ∧ l = l₀ ++ [w]))) := by
  intro m
  induction m with
  | nil =>
    intro _
    simp [addWheel]
  | cons p rest ih =>
    intro nd
    obtain ⟨k', ws⟩ := p
    simp only [List.map_cons, List.nodup_cons] at nd
    obtain ⟨hknotin, ndrest⟩ := nd
    by_cases hk' : k' = key
    · subst hk'
      rw [show addWheel ((k', ws) :: rest) k' w = (k', ws ++ [w]) :: rest from by
        simp [addWheel]]
      constructor
      · intro hmem
        rcases List.mem_cons.mp hmem with h | h
        · exact Or.inr ⟨ws, List.mem_cons_self _ _, congrArg Prod.snd h⟩
        · exact absurd (List.mem_map_of_mem Prod.fst h) hknotin
      · intro hcase
        rcases hcase with ⟨hnot, -⟩ | ⟨l₀, hmem, hl⟩
        · exact absurd (by simp) hnot
        · rcases List.mem_cons.mp hmem with h | h
          · have hws : l₀ = ws := congrArg Prod.snd h
            subst hws
            exact List.mem_cons.mpr (Or.inl (by rw [hl]))
          · exact absurd (List.mem_map_of_mem Prod.fst h) hknotin
    · have hkk : key ≠ k' := fun h => hk' h.symm
      rw [show addWheel ((k', ws) :: rest) key w = (k', ws) :: addWheel rest key w from by
        simp [addWheel, hk']]
      constructor
      · intro hmem
        rcases List.mem_cons.mp hmem with h | h
        · exact absurd (congrArg Prod.fst h) hkk
        · rcases (ih ndrest).mp h with ⟨hnot, hl⟩ | ⟨l₀, hmem₀, hl⟩
          · refine Or.inl ⟨?_, hl⟩
            simp only [List.map_cons, List.mem_cons, not_or]
            exact ⟨hkk, hnot⟩
          · exact Or.inr ⟨l₀, List.mem_cons_of_mem _ hmem₀, hl⟩
      · intro hcase
        rcases hcase with ⟨hnot, hl⟩ | ⟨l₀, hmem₀, hl⟩
        · have hnot' : key ∉ rest.map Prod.fst := by
            simp only [List.map_cons, List.mem_cons, not_or] at hnot
            exact hnot.2
          exact List.mem_cons_of_mem _ ((ih ndrest).mpr (Or.inl ⟨hnot', hl⟩))
        · rcases List.mem_cons.mp hmem₀ with h | h
          · exact absurd (congrArg Prod.fst h) hkk
          · exact List.mem_cons_of_mem _ ((ih ndrest).mpr (Or.inr ⟨l₀, h, hl⟩))

theorem addWheel_sum (m : List (String × List WheelRecord)) (key : String) (w : WheelRecord) :
    ((addWheel m key w).map (fun p => p.2.length)).sum
      = (m.map (fun p => p.2.length)).sum + 1 := by
  induction m with
  | nil => simp [addWheel]
  | cons p rest ih =>
    obtain ⟨k', ws⟩ := p
    by_cases hk' : k' = key
    · subst hk'
      simp [addWheel]
      omega
    · simp [addWheel, hk', ih]
      omega

/-- Loop invariant of the grouping loop: after processing the wheels
ps, the mapping m has pairwise distinct keys, each entry is exactly the
filter of ps by its key, every processed wheel's key is present, absent
keys have empty filters, and the entry sizes sum to the number of
processed wheels. -/
def GroupInv (m : List (String × List WheelRecord)) (ps : List WheelRecord) : Prop :=
  (m.map Prod.fst).Nodup
  ∧ (∀ k l, (k, l) ∈ m → l = ps.filter (fun w => wheelKey w == k))
  ∧ (∀ w ∈ ps, wheelKey w ∈ m.map Prod.fst)
  ∧ (∀ k, k ∉ m.map Prod.fst → ps.filter (fun w => wheelKey w == k) = [])
  ∧ (m.map (fun p => p.2.length)).sum = ps.length


theorem groupStep (m : List (String × List WheelRecord)) (ps : List WheelRecord)
    (w : WheelRecord) (h : GroupInv m ps) :
    GroupInv (addWheel m (wheelKey w) w) (ps ++ [w]) := by
  obtain ⟨nd, hval, hcov, hmiss, hsum⟩ := h
  refine ⟨?_, ?_, ?_, ?_, ?_⟩
  · rw [addWheel_keys]
    by_cases hmem : wheelKey w ∈ m.map Prod.fst
    · simp [hmem, nd]
    · simp [List.nodup_append, hmem, nd]
  · intro k l hkl
    by_cases hk : k = wheelKey w
    · subst hk
      rw [List.filter_append]
      rcases (addWheel_mem_self m nd).mp hkl with ⟨hnot, rfl⟩ | ⟨l₀, hmem₀, rfl⟩
      · rw [hmiss _ hnot]
        simp
      · rw [← hval _ _ hmem₀]
        simp
    · rw [List.filter_append, ← hval _ _ ((addWheel_mem_ne hk m).mp hkl)]
      have hne : (wheelKey w == k) = false := by
        simp only [beq_eq_false_iff_ne, ne_eq]
        exact fun he => hk he.symm
      simp [hne]
  · intro w' hw'
    rw [addWheel_keys]
    rcases List.mem_append.mp hw' with h | h
    · have hin := hcov w' h
      by_cases hmem : wheelKey w ∈ m.map Prod.fst <;> simp [hmem, hin]
    · have hww : w' = w := by simpa using h
      rw [hww]
      by_cases hmem : wheelKey w ∈ m.map Prod.fst <;> simp [hmem]
  · intro k hk
    rw [addWheel_keys] at hk
    have h1 : k ∉ m.map Prod.fst ∧ k ≠ wheelKey w := by
      by_cases hmem : wheelKey w ∈ m.map Prod.fst
      · rw [if_pos hmem] at hk
        exact ⟨hk, fun he => hk (he ▸ hmem)⟩
      · rw [if_neg hmem] at hk
        simp only [List.mem_append, List.mem_singleton, not_or] at hk
        exact ⟨hk.1, hk.2⟩
    have hne : (wheelKey w == k) = false := by
      simp only [beq_eq_false_iff_ne, ne_eq]
      exact fun he => h1.2 he.symm
    rw [List.filter_append, hmiss k h1.1]
    simp [hne]
  · rw [addWheel_sum]
    simp [hsum]

theorem groupFold :
    ∀ (ws : List WheelRecord) (m : List (String × List WheelRecord)) (ps : List WheelRecord),
      GroupInv m ps →
      GroupInv (ws.foldl (fun m w => addWheel m (wheelKey w) w) m) (ps ++ ws) := by
  intro ws
  induction ws with
  | nil =>
    intro m ps h
    simpa using h
  | cons w ws ih =>
    intro m ps h
    have h2 := ih _ _ (groupStep m ps w h)
    simpa using h2

/-- C10: grouping partitions the extracted wheel list: the group keys
are pairwise distinct, each group's list is exactly the input filtered
to that key (so each wheel lands in exactly one group and groups keep
the input's order), every wheel's key is a group key, and the group
sizes sum to the input length. -/
theorem groupWheels_partition (ws : List WheelRecord) :
    ((groupWheels ws).map Prod.fst).Nodup
    ∧ (∀ k l, (k, l) ∈ groupWheels ws → l = ws.filter (fun w => wheelKey w == k))
    ∧ (∀ w ∈ ws, wheelKey w ∈ (groupWheels ws).map Prod.fst)
    ∧ ((groupWheels ws).map (fun p => p.2.length)).sum = ws.length := by
  have h := groupFold ws [] [] ⟨by simp, by simp, by simp, by simp, by simp⟩
  simp only [List.nil_append] at h
  exact ⟨h.1, h.2.1, h.2.2.1, h.2.2.2.2⟩

/-- Witness for C10 on a concrete two-wheel list whose filenames share
the first hyphen field. -/
theorem groupWheels_partition_witness :
    ((groupWheels [⟨"flash_attn-1.0.whl", "u1", 1, "t1"⟩,
        ⟨"flash_attn-2.0.whl", "u2", 2, "t2"⟩]).map Prod.fst).Nodup
    ∧ (∀ k l, (k, l) ∈ groupWheels [⟨"flash_attn-1.0.whl", "u1", 1, "t1"⟩,
        ⟨"flash_attn-2.0.whl", "u2", 2, "t2"⟩] →
        l = [⟨"flash_attn-1.0.whl", "u1", 1, "t1"⟩,
             ⟨"flash_attn-2.0.whl", "u2", 2, "t2"⟩].filter (fun w => wheelKey w == k))
    ∧ (∀ w ∈ [⟨"flash_attn-1.0.whl", "u1", 1, "t1"⟩,
        ⟨"flash_attn-2.0.whl", "u2", 2, "t2"⟩],
        wheelKey w ∈ (groupWheels [⟨"flash_attn-1.0.whl", "u1", 1, "t1"⟩,
          ⟨"flash_attn-2.0.whl", "u2", 2, "t2"⟩]).map Prod.fst)
    ∧ ((groupWheels [⟨"flash_attn-1.0.whl", "u1", 1, "t1"⟩,
        ⟨"flash_attn-2.0.whl", "u2", 2, "t2"⟩]).map (fun p => p.2.length)).sum
        = ([⟨"flash_attn-1.0.whl", "u1", 1, "t1"⟩,
            ⟨"flash_attn-2.0.whl", "u2", 2, "t2"⟩] : List WheelRecord).length :=
  groupWheels_partition [⟨"flash_attn-1.0.whl", "u1", 1, "t1"⟩,
    ⟨"flash_attn-2.0.whl", "u2", 2, "t2"⟩]
